import Mathlib

/-!
Verification of the BLS signature module `libursa/src/signatures/bls.rs`
(module `normal`: public keys in G1, signatures in G2).

The external pairing library (`amcl_wrapper`) provides prime-order groups
G1, G2, GT with a bilinear pairing, deterministic hash-to-group maps, and
fixed-size canonical byte encodings.  We model it in exponent form over a
small prime field: G1, G2 and GT are all `ZMod blsOrder` written
additively, the pairing is field multiplication (which is bilinear and
non-degenerate), and the GT identity ("one" of the multiplicative target
group) is `0` in exponent form.  This preserves exactly the algebraic
structure (prime order, bilinearity, field scalars) that the BLS
algorithms rely on, while keeping every definition executable.

Randomness (`FieldElement::random`) is modelled by passing the drawn
scalars as explicit arguments.
-/

/-- Order of the pairing groups in the model: a small prime standing in
for the BLS curve order, so that all scalar/group arithmetic is executable
and the scalar ring is a field, as in the source library. -/
abbrev blsOrder : Nat := 31

instance : Fact (Nat.Prime blsOrder) := ⟨by norm_num⟩

/-- Scalar field (`FieldElement` of `amcl_wrapper`); also the exponent
form of the groups G1, G2 and GT of the model. -/
abbrev FieldElement := ZMod blsOrder

/-- Model of `pub type PrivateKey = FieldElement;` (bls.rs line 18). -/
abbrev PrivateKey := FieldElement

/-- Byte strings are lists of naturals (each entry standing for a byte). -/
abbrev Bytes := List Nat

/-- Deterministic hash-to-group into the signature group G2
(`SignatureGroup::from_msg_hash` of the external library): an arbitrary
concrete deterministic map, standing in for the hash-to-curve map. -/
def hashToSig (m : Bytes) : FieldElement :=
  m.foldl (fun a b => a * 5 + (b : FieldElement)) 3

/-- Deterministic hash-to-scalar (`FieldElement::from_msg_hash` of the
external library): an arbitrary concrete deterministic map. -/
def hashToField (m : Bytes) : FieldElement :=
  m.foldl (fun a b => a * 7 + (b : FieldElement)) 5

/-- The 2-pairing product `e(a1, a2) * e(b1, b2)` of `GT::ate_2_pairing`,
in exponent form: bilinearity makes each factor the product of the two
exponents, and the GT group operation is addition of exponents. -/
def ate2Pairing (a1 a2 b1 b2 : FieldElement) : FieldElement :=
  a1 * a2 + b1 * b2

/-- The multi-pairing product `Π e(g1_i, g2_i)` of
`GT::ate_multi_pairing`, in exponent form. -/
def ateMultiPairing (ps : List (FieldElement × FieldElement)) : FieldElement :=
  (ps.map (fun p => p.1 * p.2)).sum

/-- Model of `GT::is_one`: the element is the identity of the pairing target
group, i.e. `0` in exponent form. -/
def GTisOne (x : FieldElement) : Bool := x == 0

/-- Modelled from the spec: `CryptoError` is declared at libursa's crate
root, outside `src/`; the spec only requires a typed parse error carrying
a diagnostic string (`CryptoError::ParseError`). -/
inductive CryptoError where
  | ParseError (msg : String)
deriving DecidableEq

instance {ε α : Type} [DecidableEq ε] [DecidableEq α] : DecidableEq (Except ε α) := fun x y =>
  match x, y with
  | .ok a, .ok b =>
    if h : a = b then isTrue (by rw [h]) else isFalse (fun he => by cases he; exact h rfl)
  | .ok _, .error _ => isFalse (fun he => by cases he)
  | .error _, .ok _ => isFalse (fun he => by cases he)
  | .error a, .error b =>
    if h : a = b then isTrue (by rw [h]) else isFalse (fun he => by cases he; exact h rfl)

/-! ### Fixed-size byte encodings

The encodings of scalars and group points live in the external
`amcl_wrapper` library.  Per the spec (§4.5, §6) they are fixed-size and
decoding validates both the length and subgroup membership (here: that
the padding bytes are zero and the value is a canonical representative
below the group order), failing with a diagnostic string otherwise. -/

/-- Model of `MODBYTES`: byte length of a scalar in the model. -/
def MODBYTES : Nat := 1

/-- Model of `GroupG1_SIZE`: byte length of a G1 point in the model. -/
def GroupG1_SIZE : Nat := 2

/-- Model of `GroupG2_SIZE`: byte length of a G2 point in the model. -/
def GroupG2_SIZE : Nat := 3

/-- Model of `pub const PRIVATE_KEY_SIZE: usize = MODBYTES;` (bls.rs line 15). -/
def PRIVATE_KEY_SIZE : Nat := MODBYTES

/-- Model of `pub const PUBLIC_KEY_SIZE: usize = GroupG1_SIZE;` (bls.rs line 329,
module `normal`). -/
def PUBLIC_KEY_SIZE : Nat := GroupG1_SIZE

/-- Model of `pub const SIGNATURE_SIZE: usize = GroupG2_SIZE;` (bls.rs line 330,
module `normal`). -/
def SIGNATURE_SIZE : Nat := GroupG2_SIZE

/-- Model of `FieldElement::to_bytes` of the external library (fixed size
`MODBYTES`). -/
def fieldToBytes (x : FieldElement) : Bytes := [x.val]

/-- Model of `FieldElement::from_bytes` of the external library: validates length
and that the value is a canonical representative. -/
def fieldFromBytes (bs : Bytes) : Except String FieldElement :=
  match bs with
  | [b] => if b < blsOrder then .ok (b : FieldElement) else .error "invalid scalar"
  | _ => .error "invalid scalar length"

/-- Model of `G1::to_bytes` of the external library (fixed size `GroupG1_SIZE`). -/
def g1ToBytes (x : FieldElement) : Bytes := [0, x.val]

/-- Model of `G1::from_bytes` of the external library: validates length and
membership (canonical value below the group order). -/
def g1FromBytes (bs : Bytes) : Except String FieldElement :=
  match bs with
  | [b0, b1] =>
    if b0 = 0 ∧ b1 < blsOrder then .ok (b1 : FieldElement)
    else .error "invalid G1 point"
  | _ => .error "invalid G1 length"

/-- Model of `G2::to_bytes` of the external library (fixed size `GroupG2_SIZE`). -/
def g2ToBytes (x : FieldElement) : Bytes := [0, 0, x.val]

/-- Model of `G2::from_bytes` of the external library: validates length and
membership (canonical value below the group order). -/
def g2FromBytes (bs : Bytes) : Except String FieldElement :=
  match bs with
  | [b0, b1, b2] =>
    if b0 = 0 ∧ b1 = 0 ∧ b2 < blsOrder then .ok (b2 : FieldElement)
    else .error "invalid G2 point"
  | _ => .error "invalid G2 length"

/-! ### Value types of module `normal` (bls.rs 326-495) -/

/-- Model of `pub struct PublicKey(Generator);` where `Generator = G1`. -/
structure PublicKey where
  val : FieldElement
deriving DecidableEq

instance : Inhabited PublicKey := ⟨⟨0⟩⟩

/-- Model of `pub struct AggregatedPublicKey(Generator);`. -/
structure AggregatedPublicKey where
  val : FieldElement
deriving DecidableEq

instance : Inhabited AggregatedPublicKey := ⟨⟨0⟩⟩

/-- Model of `pub struct Signature(SignatureGroup);` where `SignatureGroup = G2`. -/
structure Signature where
  val : FieldElement
deriving DecidableEq

instance : Inhabited Signature := ⟨⟨0⟩⟩

/-- Model of `pub struct AggregatedSignature(SignatureGroup);`. -/
structure AggregatedSignature where
  val : FieldElement
deriving DecidableEq

instance : Inhabited AggregatedSignature := ⟨⟨0⟩⟩

/-- Model of `PublicKey::new(sk, g) = PublicKey(g * sk)` (bls.rs 26-28). -/
def PublicKey.new (sk : PrivateKey) (g : FieldElement) : PublicKey :=
  ⟨g * sk⟩

/-- Model of `generate(g)`: draws a random scalar `sk` and returns
`(PublicKey::new(sk, g), sk)` (bls.rs 96-105); the random draw is
modelled by the explicit argument `sk`. -/
def generate (g : FieldElement) (sk : PrivateKey) : PublicKey × PrivateKey :=
  (PublicKey.new sk g, sk)

/-- Model of `PublicKey::to_bytes` (bls.rs 37-39): encoding of the inner G1
element. -/
def PublicKey.toBytes (p : PublicKey) : Bytes := g1ToBytes p.val

/-- Model of `PublicKey::from_bytes` (bls.rs 41-45): decode the inner G1 element,
wrapping a library failure in `CryptoError::ParseError`. -/
def PublicKey.fromBytes (bs : Bytes) : Except CryptoError PublicKey :=
  match g1FromBytes bs with
  | .ok v => .ok ⟨v⟩
  | .error e => .error (.ParseError e)

/-- The byte string concatenating the encodings of all public keys in
list order (`bytes` in `AggregatedPublicKey::from` and in
`Signature::new_with_rk_mitigation`). -/
def allKeyBytes (keys : List PublicKey) : Bytes :=
  (keys.map PublicKey.toBytes).flatten

/-- Model of `AggregatedPublicKey::from(keys)` (bls.rs 57-76): fold over the keys,
adding each key scaled by the hash of all key encodings followed by a
second copy of that key's encoding. -/
def AggregatedPublicKey.ofKeys (keys : List PublicKey) : AggregatedPublicKey :=
  ⟨keys.foldl
    (fun apk k => apk + k.val * hashToField (allKeyBytes keys ++ k.toBytes)) 0⟩

/-- Model of `AggregatedPublicKey::new(keys) = keys.into()` (bls.rs 79-81). -/
def AggregatedPublicKey.new (keys : List PublicKey) : AggregatedPublicKey :=
  AggregatedPublicKey.ofKeys keys

/-- Model of `AggregatedPublicKey::to_bytes` (bls.rs 83-85). -/
def AggregatedPublicKey.toBytes (p : AggregatedPublicKey) : Bytes :=
  g1ToBytes p.val

/-- Model of `AggregatedPublicKey::from_bytes` (bls.rs 87-91). -/
def AggregatedPublicKey.fromBytes (bs : Bytes) : Except CryptoError AggregatedPublicKey :=
  match g1FromBytes bs with
  | .ok v => .ok ⟨v⟩
  | .error e => .error (.ParseError e)

/-- Model of `Signature::new(message, sk) = H(message) * sk` (bls.rs 343-345). -/
def Signature.new (message : Bytes) (sk : PrivateKey) : Signature :=
  ⟨hashToSig message * sk⟩

/-- Model of `Signature::new_with_rk_mitigation(message, sk, pk_index, pks)`
(bls.rs 347-364): hash all key encodings plus a second copy of
`pks[pk_index]`'s encoding to a scalar `a`, return
`H(message) * sk * a`.  The Rust code indexes `pks[pk_index]`
unconditionally and panics when out of bounds; the panic is modelled by
`none`. -/
def Signature.newWithRkMitigation (message : Bytes) (sk : PrivateKey)
    (pkIndex : Nat) (pks : List PublicKey) : Option Signature :=
  if h : pkIndex < pks.length then
    let a := hashToField (allKeyBytes pks ++ (pks.get ⟨pkIndex, h⟩).toBytes)
    some ⟨hashToSig message * sk * a⟩
  else
    none

/-- Model of `Signature::verify(message, pk, g)` (bls.rs 377-380):
`ate_2_pairing(-g, sig, pk, H(message)).is_one()`. -/
def Signature.verify (s : Signature) (message : Bytes) (pk : PublicKey)
    (g : FieldElement) : Bool :=
  GTisOne (ate2Pairing (-g) s.val pk.val (hashToSig message))

/-- Loop of `Signature::verify_multi` (bls.rs 386-401): walk the
`(message, public key)` pairs, returning `false` as soon as a message
hash repeats (the `HashSet` is modelled by the list `seen`), otherwise
accumulating the pairing inputs. -/
def verifyMultiGo (g sigv : FieldElement) :
    List (Bytes × PublicKey) → List FieldElement → List (FieldElement × FieldElement) → Bool
  | [], _seen, pairs => GTisOne (ateMultiPairing (pairs ++ [(-g, sigv)]))
  | (msg, pk) :: rest, seen, pairs =>
    let h := hashToSig msg
    if h ∈ seen then false
    else verifyMultiGo g sigv rest (h :: seen) (pairs ++ [(pk.val, h)])

/-- Model of `Signature::verify_multi(inputs, g)` (bls.rs 386-401). -/
def Signature.verifyMulti (s : Signature) (inputs : List (Bytes × PublicKey))
    (g : FieldElement) : Bool :=
  verifyMultiGo g s.val inputs [] []

/-- Model of `Signature::batch_verify(inputs, g)` (bls.rs 403-420): one random
scalar per triple (modelled by the list `rs`, zipped in order), the
signatures are accumulated as `Σ s_j * r_j`, the pairs are
`(pk_j * r_j, H(m_j))` plus a final `(-g, Σ s_j * r_j)`, and the
multi-pairing product is compared to the GT identity. -/
def Signature.batchVerify (inputs : List (Bytes × Signature × PublicKey))
    (g : FieldElement) (rs : List FieldElement) : Bool :=
  let zipped := inputs.zip rs
  let sig := (zipped.map (fun p => p.1.2.1.val * p.2)).sum
  let pairs := zipped.map (fun p => (p.1.2.2.val * p.2, hashToSig p.1.1))
  GTisOne (ateMultiPairing (pairs ++ [(-g, sig)]))

/-- Model of `Signature::to_bytes` (bls.rs 422-424). -/
def Signature.toBytes (s : Signature) : Bytes := g2ToBytes s.val

/-- Model of `Signature::from_bytes` (bls.rs 426-430). -/
def Signature.fromBytes (bs : Bytes) : Except CryptoError Signature :=
  match g2FromBytes bs with
  | .ok v => .ok ⟨v⟩
  | .error e => .error (.ParseError e)

/-- Model of `AggregatedSignature::new(signatures)` (bls.rs 440-446): fold of the
group sum starting from the identity. -/
def AggregatedSignature.new (signatures : List Signature) : AggregatedSignature :=
  ⟨signatures.foldl (fun sig s => sig + s.val) 0⟩

/-- Model of `AggregatedSignature::verify(message, pk, g)` (bls.rs 449-452). -/
def AggregatedSignature.verify (s : AggregatedSignature) (message : Bytes)
    (pk : AggregatedPublicKey) (g : FieldElement) : Bool :=
  GTisOne (ate2Pairing (-g) s.val pk.val (hashToSig message))

/-- Model of `AggregatedSignature::batch_verify(inputs, g)` (bls.rs 466-489):
identical shape to `Signature::batch_verify`, over aggregated values. -/
def AggregatedSignature.batchVerify
    (inputs : List (Bytes × AggregatedSignature × AggregatedPublicKey))
    (g : FieldElement) (rs : List FieldElement) : Bool :=
  let zipped := inputs.zip rs
  let sig := (zipped.map (fun p => p.1.2.1.val * p.2)).sum
  let pairs := zipped.map (fun p => (p.1.2.2.val * p.2, hashToSig p.1.1))
  GTisOne (ateMultiPairing (pairs ++ [(-g, sig)]))

/-- Modelled from the spec: `AggregatedSignature` byte encoding.  The
spec (§6) lists `to_bytes`/`from_bytes` on every value type, but
`bls.rs` gives `AggregatedSignature` no such methods (only a serde
derive); we model it like `Signature`'s, over the same group G2. -/
def AggregatedSignature.toBytes (s : AggregatedSignature) : Bytes :=
  g2ToBytes s.val

/-- Modelled from the spec: `AggregatedSignature::from_bytes`, mirror of
`Signature::from_bytes`. -/
def AggregatedSignature.fromBytes (bs : Bytes) : Except CryptoError AggregatedSignature :=
  match g2FromBytes bs with
  | .ok v => .ok ⟨v⟩
  | .error e => .error (.ParseError e)

/-- Model of `PrivateKey` encoding: directly the external library's
`FieldElement::to_bytes`. -/
def PrivateKey.toBytes (x : PrivateKey) : Bytes := fieldToBytes x

/-- Model of `PrivateKey` decoding, wrapping the library failure like the other
`from_bytes` wrappers. -/
def PrivateKey.fromBytes (bs : Bytes) : Except CryptoError PrivateKey :=
  match fieldFromBytes bs with
  | .ok v => .ok v
  | .error e => .error (.ParseError e)

/-! ### Spec-side definitions (for refinement statements) -/

/-- The spec's mitigation coefficient `t_i` for signer `i` among the
ordered list `pks`: hash of the concatenation of all public-key
encodings in order followed by a second copy of `pk_i`'s encoding. -/
def mitigationCoeff (pks : List PublicKey) (i : Nat) : FieldElement :=
  hashToField (allKeyBytes pks ++ (pks.getD i default).toBytes)

/-- Sum of `f 0 + ... + f (n-1)` over the scalar field, used to state
aggregation results index-wise. -/
def sumIdx (n : Nat) (f : Nat → FieldElement) : FieldElement :=
  ((List.range n).map f).sum

/-! ### Helper lemmas -/

lemma GTisOne_iff (x : FieldElement) : GTisOne x = true ↔ x = 0 := by
  simp [GTisOne]

lemma foldl_add_map {α : Type} (f : α → FieldElement) (l : List α) (a : FieldElement) :
    l.foldl (fun x k => x + f k) a = a + (l.map f).sum := by
  induction l generalizing a with
  | nil => simp
  | cons x xs ih => simp [ih, add_assoc]

lemma map_sum_eq_sumIdx {α : Type} (f : α → FieldElement) (d : α) (l : List α) :
    (l.map f).sum = sumIdx l.length (fun i => f (l.getD i d)) := by
  induction l with
  | nil => simp [sumIdx]
  | cons x xs ih =>
    simp only [List.map_cons, List.sum_cons, ih, sumIdx, List.length_cons,
      List.range_succ_eq_map, List.map_map, Function.comp_def, List.getD_cons_zero,
      List.getD_cons_succ]

lemma sumIdx_congr (n : Nat) (f g : Nat → FieldElement)
    (h : ∀ i, i < n → f i = g i) : sumIdx n f = sumIdx n g := by
  unfold sumIdx
  congr 1
  exact List.map_congr_left (fun i hi => h i (List.mem_range.mp hi))

lemma sumIdx_mul_left (n : Nat) (c : FieldElement) (f : Nat → FieldElement) :
    sumIdx n (fun i => c * f i) = c * sumIdx n f := by
  unfold sumIdx
  induction (List.range n) with
  | nil => simp
  | cons x xs ih => simp [ih, mul_add]

lemma apkFold (bs : Bytes) (l : List PublicKey) (a : FieldElement) :
    l.foldl (fun apk k => apk + k.val * hashToField (bs ++ k.toBytes)) a
      = a + (l.map (fun k => k.val * hashToField (bs ++ k.toBytes))).sum := by
  induction l generalizing a with
  | nil => simp
  | cons x xs ih => simp [ih, add_assoc]

/-- The aggregated public key is the sum over positions of the key scaled
by its mitigation coefficient. -/
lemma apk_val_eq (pks : List PublicKey) :
    (AggregatedPublicKey.new pks).val
      = sumIdx pks.length (fun i => (pks.getD i default).val * mitigationCoeff pks i) := by
  show pks.foldl _ 0 = _
  rw [apkFold,
    map_sum_eq_sumIdx (fun k : PublicKey => k.val * hashToField (allKeyBytes pks ++ k.toBytes))
      default,
    zero_add]
  simp only [mitigationCoeff]

/-- In-bounds evaluation of `Signature::new_with_rk_mitigation`, in
terms of the mitigation coefficient. -/
lemma newWithRk_eq (m : Bytes) (sk : PrivateKey) (i : Nat)
    (pks : List PublicKey) (hi : i < pks.length) :
    Signature.newWithRkMitigation m sk i pks
      = some ⟨hashToSig m * (sk * mitigationCoeff pks i)⟩ := by
  have hget : pks.get ⟨i, hi⟩ = pks.getD i default := by
    rw [List.getD_eq_getElem pks default hi, List.get_eq_getElem]
  rw [Signature.newWithRkMitigation, dif_pos hi]
  simp only [hget, mitigationCoeff, mul_assoc]

/-- C1: for every key pair produced by `generate(g)` (so `pk = g^sk`) and
every message `m`, `Signature::new(m, sk).verify(m, pk, g)` returns true,
where `verify` evaluates the single combined pairing product
`e(-g, sig) * e(pk, H(m))` and compares it to the identity of GT. -/
theorem C1_sign_then_verify (g : FieldElement) (sk : PrivateKey) (m : Bytes) :
    (Signature.new m (generate g sk).2).verify m (generate g sk).1 g = true := by
  rw [Signature.verify, GTisOne_iff]
  simp only [generate, PublicKey.new, Signature.new, ate2Pairing]
  ring

/-- C2: `AggregatedPublicKey::new` and `Signature::new_with_rk_mitigation`
compute the mitigation coefficient `t_i` of signer `i` by the same rule
(hash of all public-key encodings in list order followed by a second copy
of `pk_i`'s encoding); the aggregated key is `Σ_i pk_i * t_i` and the
mitigated signature is `H(m)` scaled by `sk_i * t_i`. -/
theorem C2_same_coefficient_rule (pks : List PublicKey) :
    (AggregatedPublicKey.new pks).val
      = sumIdx pks.length (fun i => (pks.getD i default).val * mitigationCoeff pks i)
    ∧ ∀ (m : Bytes) (sk : PrivateKey) (i : Nat), i < pks.length →
        Signature.newWithRkMitigation m sk i pks
          = some ⟨hashToSig m * (sk * mitigationCoeff pks i)⟩ :=
  ⟨apk_val_eq pks, fun m sk i hi => newWithRk_eq m sk i pks hi⟩

/-- Witness for C2 at the two-key list `[⟨1⟩, ⟨2⟩]`, message `[3]`,
secret key `4`, index `0`. -/
theorem C2_same_coefficient_rule_witness :
    (0 : Nat) < ([⟨1⟩, ⟨2⟩] : List PublicKey).length
    ∧ Signature.newWithRkMitigation [3] 4 0 [⟨1⟩, ⟨2⟩]
        = some ⟨hashToSig [3] * (4 * mitigationCoeff [⟨1⟩, ⟨2⟩] 0)⟩ :=
  ⟨by decide, (C2_same_coefficient_rule [⟨1⟩, ⟨2⟩]).2 [3] 4 0 (by decide)⟩

/-- C9: `Signature::new_with_rk_mitigation` panics (out-of-bounds index
into `pks`) whenever `pk_index >= pks.len()`, in particular on the empty
list; the panic is modelled by the `none` result. -/
theorem C9_index_out_of_bounds (m : Bytes) (sk : PrivateKey) (i : Nat)
    (pks : List PublicKey) (h : pks.length ≤ i) :
    Signature.newWithRkMitigation m sk i pks = none := by
  rw [Signature.newWithRkMitigation, dif_neg (by omega)]

/-- Witness for C9 at the empty public-key list and index `0`. -/
theorem C9_index_out_of_bounds_witness :
    ([] : List PublicKey).length ≤ 0
    ∧ Signature.newWithRkMitigation [] 0 0 [] = none :=
  ⟨by decide, C9_index_out_of_bounds [] 0 0 [] (by decide)⟩

/-- C10: both batch-verification functions accept the empty batch for
every generator (and any supply of random scalars): the accumulated
signature is the identity and the single remaining pairing `(-g,
identity)` evaluates to the GT identity. -/
theorem C10_empty_batch_accepts (g : FieldElement) (rs : List FieldElement) :
    Signature.batchVerify [] g rs = true
    ∧ AggregatedSignature.batchVerify [] g rs = true := by
  constructor <;>
    simp [Signature.batchVerify, AggregatedSignature.batchVerify, ateMultiPairing, GTisOne]

/-- C3: for every ordered list of generated key pairs and one message,
the `AggregatedSignature` built by `AggregatedSignature::new` from the
signatures produced by `Signature::new_with_rk_mitigation` verifies via
`AggregatedSignature::verify` against the `AggregatedPublicKey` built
from the same ordered list. -/
theorem C3_aggregate_of_mitigated_verifies (g : FieldElement) (m : Bytes)
    (pks : List PublicKey) (sks : List PrivateKey) (sigs : List Signature)
    (hlen : sigs.length = pks.length)
    (hpk : ∀ i, i < pks.length → (pks.getD i default).val = g * sks.getD i 0)
    (hsig : ∀ i, i < pks.length →
        Signature.newWithRkMitigation m (sks.getD i 0) i pks = some (sigs.getD i default)) :
    (AggregatedSignature.new sigs).verify m (AggregatedPublicKey.new pks) g = true := by
  have hsv : (AggregatedSignature.new sigs).val
      = hashToSig m * sumIdx pks.length (fun i => sks.getD i 0 * mitigationCoeff pks i) := by
    show sigs.foldl _ 0 = _
    rw [foldl_add_map Signature.val, map_sum_eq_sumIdx Signature.val default, zero_add, hlen,
      ← sumIdx_mul_left]
    apply sumIdx_congr
    intro i hi
    have hs := hsig i hi
    rw [newWithRk_eq m (sks.getD i 0) i pks hi] at hs
    exact (congrArg Signature.val (Option.some.inj hs)).symm
  have hav : (AggregatedPublicKey.new pks).val
      = g * sumIdx pks.length (fun i => sks.getD i 0 * mitigationCoeff pks i) := by
    rw [apk_val_eq, ← sumIdx_mul_left]
    apply sumIdx_congr
    intro i hi
    rw [hpk i hi, mul_assoc]
  simp only [AggregatedSignature.verify, ate2Pairing, GTisOne_iff]
  rw [hsv, hav]
  ring

/-- Witness for C3 with two generated key pairs (`g = 2`, secret keys
`1` and `3`) and message `[4]`. -/
theorem C3_aggregate_of_mitigated_verifies_witness :
    ([(Signature.newWithRkMitigation [4] 1 0 [⟨2⟩, ⟨6⟩]).getD default,
      (Signature.newWithRkMitigation [4] 3 1 [⟨2⟩, ⟨6⟩]).getD default] : List Signature).length
      = ([⟨2⟩, ⟨6⟩] : List PublicKey).length
    ∧ (∀ i, i < ([⟨2⟩, ⟨6⟩] : List PublicKey).length →
        (([⟨2⟩, ⟨6⟩] : List PublicKey).getD i default).val = 2 * ([1, 3].getD i 0 : PrivateKey))
    ∧ (∀ i, i < ([⟨2⟩, ⟨6⟩] : List PublicKey).length →
        Signature.newWithRkMitigation [4] ([1, 3].getD i 0) i [⟨2⟩, ⟨6⟩]
          = some (([(Signature.newWithRkMitigation [4] 1 0 [⟨2⟩, ⟨6⟩]).getD default,
              (Signature.newWithRkMitigation [4] 3 1 [⟨2⟩, ⟨6⟩]).getD default] : List Signature).getD
                i default))
    ∧ (AggregatedSignature.new
        [(Signature.newWithRkMitigation [4] 1 0 [⟨2⟩, ⟨6⟩]).getD default,
         (Signature.newWithRkMitigation [4] 3 1 [⟨2⟩, ⟨6⟩]).getD default]).verify
        [4] (AggregatedPublicKey.new [⟨2⟩, ⟨6⟩]) 2 = true :=
  ⟨by decide, by decide, by decide,
    C3_aggregate_of_mitigated_verifies 2 [4] [⟨2⟩, ⟨6⟩] [1, 3]
      [(Signature.newWithRkMitigation [4] 1 0 [⟨2⟩, ⟨6⟩]).getD default,
       (Signature.newWithRkMitigation [4] 3 1 [⟨2⟩, ⟨6⟩]).getD default]
      (by decide) (by decide) (by decide)⟩

/-- An individually valid triple contributes equal amounts to the
pairing side and (times `g`) to the accumulated-signature side of the
batch product, for any random scalars. -/
lemma batchPairSum (g : FieldElement) :
    ∀ (inputs : List (Bytes × AggregatedSignature × AggregatedPublicKey))
      (rs : List FieldElement),
      (∀ t ∈ inputs, AggregatedSignature.verify t.2.1 t.1 t.2.2 g = true) →
      ((inputs.zip rs).map (fun p => (p.1.2.2.val * p.2) * hashToSig p.1.1)).sum
        = g * ((inputs.zip rs).map (fun p => p.1.2.1.val * p.2)).sum := by
  intro inputs
  induction inputs with
  | nil => intro rs _; simp
  | cons x xs ih =>
    intro rs hvalid
    match rs with
    | [] => simp
    | r :: rs =>
      have hx := hvalid x (List.mem_cons_self x xs)
      simp only [AggregatedSignature.verify, ate2Pairing, GTisOne_iff] at hx
      have hrest := ih rs (fun t ht => hvalid t (List.mem_cons_of_mem x ht))
      simp only [List.zip_cons_cons, List.map_cons, List.sum_cons, hrest]
      ring_nf
      linear_combination r * hx

/-- C4: `AggregatedSignature::batch_verify` pairs one fresh random
scalar with each triple, forms `(pk_j * r_j, H(m_j))` per triple,
accumulates `Σ_j s_j * r_j`, and evaluates one multi-pairing product
including `(-g, Σ_j s_j * r_j)` against the GT identity; consequently,
for any values of the drawn scalars, a batch whose every triple
individually satisfies its verification equation batch-verifies to
true. -/
theorem C4_valid_batch_accepts
    (inputs : List (Bytes × AggregatedSignature × AggregatedPublicKey))
    (g : FieldElement) (rs : List FieldElement)
    (hlen : rs.length = inputs.length)
    (hvalid : ∀ t ∈ inputs, AggregatedSignature.verify t.2.1 t.1 t.2.2 g = true) :
    AggregatedSignature.batchVerify inputs g rs = true := by
  simp only [AggregatedSignature.batchVerify, ateMultiPairing, GTisOne_iff,
    List.map_append, List.sum_append, List.map_map, Function.comp_def,
    List.map_cons, List.map_nil, List.sum_cons, List.sum_nil]
  rw [batchPairSum g inputs rs hvalid]
  ring

/-- Witness for C4 at a one-triple batch (`g = 1`, aggregated key with
value `1`, aggregated signature equal to the message hash) and random
scalar `5`. -/
theorem C4_valid_batch_accepts_witness :
    ([5] : List FieldElement).length
      = ([([2], ⟨hashToSig [2]⟩, ⟨1⟩)]
          : List (Bytes × AggregatedSignature × AggregatedPublicKey)).length
    ∧ (∀ t ∈ ([([2], ⟨hashToSig [2]⟩, ⟨1⟩)]
          : List (Bytes × AggregatedSignature × AggregatedPublicKey)),
        AggregatedSignature.verify t.2.1 t.1 t.2.2 1 = true)
    ∧ AggregatedSignature.batchVerify [([2], ⟨hashToSig [2]⟩, ⟨1⟩)] 1 [5] = true :=
  ⟨by decide, by decide,
    C4_valid_batch_accepts [([2], ⟨hashToSig [2]⟩, ⟨1⟩)] 1 [5] (by decide) (by decide)⟩

/-- The loop of `verify_multi` returns `false` whenever the remaining
message hashes contain a duplicate or hit a hash already seen. -/
lemma verifyMultiGo_dup (g sv : FieldElement) :
    ∀ (l : List (Bytes × PublicKey)) (seen : List FieldElement)
      (pairs : List (FieldElement × FieldElement)),
      (¬ (l.map (fun p => hashToSig p.1)).Nodup
        ∨ ∃ h ∈ seen, h ∈ l.map (fun p => hashToSig p.1)) →
      verifyMultiGo g sv l seen pairs = false := by
  intro l
  induction l with
  | nil =>
    intro seen pairs hdup
    rcases hdup with hnd | ⟨h, _, hmem⟩
    · exact absurd List.nodup_nil hnd
    · simp at hmem
  | cons x xs ih =>
    intro seen pairs hdup
    by_cases hx : hashToSig x.1 ∈ seen
    · simp [verifyMultiGo, hx]
    · obtain ⟨m, pk⟩ := x
      simp only [verifyMultiGo, if_neg hx]
      apply ih
      rcases hdup with hnd | ⟨h, hseen, hmem⟩
      · rw [List.map_cons, List.nodup_cons] at hnd
        by_cases hmem2 : hashToSig m ∈ xs.map (fun p => hashToSig p.1)
        · exact Or.inr ⟨hashToSig m, List.mem_cons_self _ _, hmem2⟩
        · exact Or.inl (fun hnd2 => hnd ⟨hmem2, hnd2⟩)
      · rcases List.mem_cons.mp hmem with heq | hmem2
        · have heq2 : h = hashToSig m := heq
          exact absurd (heq2 ▸ hseen) hx
        · exact Or.inr ⟨h, List.mem_cons_of_mem _ hseen, hmem2⟩

/-- C5: if two entries of the input list to `Signature::verify_multi`
have messages with equal hash-to-group values (in particular two equal
messages), `verify_multi` returns the ordinary boolean `false`. -/
theorem C5_duplicate_hash_rejected (s : Signature) (inputs : List (Bytes × PublicKey))
    (g : FieldElement) (i j : Nat) (hij : i ≠ j)
    (hi : i < inputs.length) (hj : j < inputs.length)
    (hh : hashToSig (inputs.getD i default).1 = hashToSig (inputs.getD j default).1) :
    s.verifyMulti inputs g = false := by
  apply verifyMultiGo_dup
  left
  intro hnd
  rw [List.getD_eq_getElem inputs default hi, List.getD_eq_getElem inputs default hj] at hh
  have hi2 : i < (inputs.map (fun p => hashToSig p.1)).length := by simpa using hi
  have hj2 : j < (inputs.map (fun p => hashToSig p.1)).length := by simpa using hj
  have hij2 : (inputs.map (fun p => hashToSig p.1)).get ⟨i, hi2⟩
      = (inputs.map (fun p => hashToSig p.1)).get ⟨j, hj2⟩ := by
    simpa using hh
  have hfin : (⟨i, hi2⟩ : Fin (inputs.map (fun p => hashToSig p.1)).length) = ⟨j, hj2⟩ :=
    (List.Nodup.get_inj_iff hnd).mp hij2
  exact hij (congrArg Fin.val hfin)

/-- Witness for C5: two entries carrying the same message `[1]`. -/
theorem C5_duplicate_hash_rejected_witness :
    (0 : Nat) ≠ 1
    ∧ (0 : Nat) < ([([1], ⟨1⟩), ([1], ⟨2⟩)] : List (Bytes × PublicKey)).length
    ∧ (1 : Nat) < ([([1], ⟨1⟩), ([1], ⟨2⟩)] : List (Bytes × PublicKey)).length
    ∧ hashToSig (([([1], ⟨1⟩), ([1], ⟨2⟩)] : List (Bytes × PublicKey)).getD 0 default).1
        = hashToSig (([([1], ⟨1⟩), ([1], ⟨2⟩)] : List (Bytes × PublicKey)).getD 1 default).1
    ∧ Signature.verifyMulti ⟨3⟩ [([1], ⟨1⟩), ([1], ⟨2⟩)] 1 = false :=
  ⟨by decide, by decide, by decide, by decide,
    C5_duplicate_hash_rejected ⟨3⟩ [([1], ⟨1⟩), ([1], ⟨2⟩)] 1 0 1
      (by decide) (by decide) (by decide) (by decide)⟩

/-- C6 counterexample: the claim quantifies over every private key with
`pk_i = g^sk_i`; at `sk_i = 0` (so `pk_i` is the identity) the mitigated
signature is the identity and DOES verify against its own plain public
key, so the claim is false as stated. -/
theorem C6_counterexample_sk_zero :
    ((⟨0⟩ : PublicKey) = PublicKey.new 0 1)
    ∧ (Signature.newWithRkMitigation [] 0 0 [⟨0⟩]).map
        (fun s => s.verify [] ⟨0⟩ 1) = some true := by
  constructor
  · decide
  · decide

/-- C6 (amended): an individual mitigated signature does not verify
against its own plain public key, provided the degenerate cases are
excluded: the generator is not the identity, `sk_i` is not zero, `H(m)`
is not the identity, and the mitigation coefficient `t_i` is not one. -/
theorem C6_no_standalone_verify (g : FieldElement) (sk : PrivateKey) (m : Bytes)
    (pks : List PublicKey) (i : Nat) (hi : i < pks.length)
    (hpk : (pks.getD i default).val = g * sk)
    (hg : g ≠ 0) (hsk : sk ≠ 0) (hm : hashToSig m ≠ 0)
    (ht : mitigationCoeff pks i ≠ 1) :
    (Signature.newWithRkMitigation m sk i pks).map
      (fun s => s.verify m (pks.getD i default) g) = some false := by
  rw [newWithRk_eq m sk i pks hi]
  apply congrArg some
  simp only [Signature.verify, ate2Pairing, GTisOne, beq_eq_false_iff_ne, ne_eq]
  intro heq
  have h1 : (1 : FieldElement) - mitigationCoeff pks i ≠ 0 := sub_ne_zero.mpr (Ne.symm ht)
  have h2 : g * sk * hashToSig m * (1 - mitigationCoeff pks i) ≠ 0 :=
    mul_ne_zero (mul_ne_zero (mul_ne_zero hg hsk) hm) h1
  apply h2
  rw [hpk] at heq
  linear_combination heq

/-- Witness for the amended C6 at `g = 1`, `sk = 1`, message `[1]`,
single-key list `[⟨1⟩]`, index `0`. -/
theorem C6_no_standalone_verify_witness :
    (0 : Nat) < ([⟨1⟩] : List PublicKey).length
    ∧ (([⟨1⟩] : List PublicKey).getD 0 default).val = 1 * 1
    ∧ (1 : FieldElement) ≠ 0
    ∧ hashToSig [1] ≠ 0
    ∧ mitigationCoeff [⟨1⟩] 0 ≠ 1
    ∧ (Signature.newWithRkMitigation [1] 1 0 [⟨1⟩]).map
        (fun s => s.verify [1] (([⟨1⟩] : List PublicKey).getD 0 default) 1) = some false :=
  ⟨by decide, by decide, by decide, by decide, by decide,
    C6_no_standalone_verify 1 1 [1] [⟨1⟩] 0 (by decide) (by decide)
      (by decide) (by decide) (by decide) (by decide)⟩

/-- Every input byte string decodes either to a value whose canonical
encoding is exactly the input (of the fixed size), or to a typed
`ParseError` with a diagnostic: the two disjoint outcomes of the decode
surface. -/
def decodesSafely {X : Type} (enc : X → Bytes) (dec : Bytes → Except CryptoError X)
    (size : Nat) : Prop :=
  ∀ bs : Bytes,
    (∃ x, dec bs = .ok x ∧ enc x = bs ∧ bs.length = size)
    ∨ (∃ s, dec bs = .error (CryptoError.ParseError s))

lemma field_decode_safe (bs : Bytes) :
    (∃ v, fieldFromBytes bs = .ok v ∧ fieldToBytes v = bs ∧ bs.length = MODBYTES)
    ∨ (∃ s, fieldFromBytes bs = .error s) := by
  match bs with
  | [b] =>
    by_cases hc : b < blsOrder
    · exact Or.inl ⟨(b : FieldElement), by simp [fieldFromBytes, hc],
        by simp [fieldToBytes, ZMod.val_natCast_of_lt hc], rfl⟩
    · exact Or.inr ⟨"invalid scalar", by simp [fieldFromBytes, hc]⟩
  | [] => exact Or.inr ⟨_, rfl⟩
  | _ :: _ :: _ => exact Or.inr ⟨_, rfl⟩

lemma g1_decode_safe (bs : Bytes) :
    (∃ v, g1FromBytes bs = .ok v ∧ g1ToBytes v = bs ∧ bs.length = GroupG1_SIZE)
    ∨ (∃ s, g1FromBytes bs = .error s) := by
  match bs with
  | [b0, b1] =>
    by_cases hc : b0 = 0 ∧ b1 < blsOrder
    · exact Or.inl ⟨(b1 : FieldElement), by simp [g1FromBytes, hc],
        by simp [g1ToBytes, hc.1, ZMod.val_natCast_of_lt hc.2], rfl⟩
    · exact Or.inr ⟨"invalid G1 point", by simp only [g1FromBytes, if_neg hc]⟩
  | [] => exact Or.inr ⟨_, rfl⟩
  | [_] => exact Or.inr ⟨_, rfl⟩
  | _ :: _ :: _ :: _ => exact Or.inr ⟨_, rfl⟩

lemma g2_decode_safe (bs : Bytes) :
    (∃ v, g2FromBytes bs = .ok v ∧ g2ToBytes v = bs ∧ bs.length = GroupG2_SIZE)
    ∨ (∃ s, g2FromBytes bs = .error s) := by
  match bs with
  | [b0, b1, b2] =>
    by_cases hc : b0 = 0 ∧ b1 = 0 ∧ b2 < blsOrder
    · exact Or.inl ⟨(b2 : FieldElement), by simp [g2FromBytes, hc],
        by simp [g2ToBytes, hc.1, hc.2.1, ZMod.val_natCast_of_lt hc.2.2], rfl⟩
    · exact Or.inr ⟨"invalid G2 point", by simp only [g2FromBytes, if_neg hc]⟩
  | [] => exact Or.inr ⟨_, rfl⟩
  | [_] => exact Or.inr ⟨_, rfl⟩
  | [_, _] => exact Or.inr ⟨_, rfl⟩
  | _ :: _ :: _ :: _ :: _ => exact Or.inr ⟨_, rfl⟩

/-- C7: for every value of every value type, `from_bytes(to_bytes(x))`
succeeds and returns `x`, and the encoding's length equals the
configuration's fixed size constant. -/
theorem C7_roundtrip_and_size :
    (∀ x : PrivateKey, PrivateKey.fromBytes (PrivateKey.toBytes x) = .ok x
        ∧ (PrivateKey.toBytes x).length = PRIVATE_KEY_SIZE)
    ∧ (∀ x : PublicKey, PublicKey.fromBytes x.toBytes = .ok x
        ∧ x.toBytes.length = PUBLIC_KEY_SIZE)
    ∧ (∀ x : AggregatedPublicKey, AggregatedPublicKey.fromBytes x.toBytes = .ok x
        ∧ x.toBytes.length = PUBLIC_KEY_SIZE)
    ∧ (∀ x : Signature, Signature.fromBytes x.toBytes = .ok x
        ∧ x.toBytes.length = SIGNATURE_SIZE)
    ∧ (∀ x : AggregatedSignature, AggregatedSignature.fromBytes x.toBytes = .ok x
        ∧ x.toBytes.length = SIGNATURE_SIZE) := by
  refine ⟨by decide, ?_, ?_, ?_, ?_⟩ <;>
    (rintro ⟨v⟩; revert v; decide)

/-- C8: for every byte string, `from_bytes` on every value type either
returns a correctly decoded value (whose canonical fixed-size encoding
is the input, so never a silently-wrong value) or a typed
`CryptoError::ParseError` carrying a diagnostic; it is total (never
panics) and validates both length and membership. -/
theorem C8_decode_total_and_validated :
    decodesSafely PrivateKey.toBytes PrivateKey.fromBytes PRIVATE_KEY_SIZE
    ∧ decodesSafely PublicKey.toBytes PublicKey.fromBytes PUBLIC_KEY_SIZE
    ∧ decodesSafely AggregatedPublicKey.toBytes AggregatedPublicKey.fromBytes PUBLIC_KEY_SIZE
    ∧ decodesSafely Signature.toBytes Signature.fromBytes SIGNATURE_SIZE
    ∧ decodesSafely AggregatedSignature.toBytes AggregatedSignature.fromBytes SIGNATURE_SIZE := by
  refine ⟨?_, ?_, ?_, ?_, ?_⟩
  · intro bs
    rcases field_decode_safe bs with ⟨v, hok, henc, hl⟩ | ⟨s, herr⟩
    · exact Or.inl ⟨v, by simp [PrivateKey.fromBytes, hok], henc, hl⟩
    · exact Or.inr ⟨s, by simp [PrivateKey.fromBytes, herr]⟩
  · intro bs
    rcases g1_decode_safe bs with ⟨v, hok, henc, hl⟩ | ⟨s, herr⟩
    · exact Or.inl ⟨⟨v⟩, by simp [PublicKey.fromBytes, hok], henc, hl⟩
    · exact Or.inr ⟨s, by simp [PublicKey.fromBytes, herr]⟩
  · intro bs
    rcases g1_decode_safe bs with ⟨v, hok, henc, hl⟩ | ⟨s, herr⟩
    · exact Or.inl ⟨⟨v⟩, by simp [AggregatedPublicKey.fromBytes, hok], henc, hl⟩
    · exact Or.inr ⟨s, by simp [AggregatedPublicKey.fromBytes, herr]⟩
  · intro bs
    rcases g2_decode_safe bs with ⟨v, hok, henc, hl⟩ | ⟨s, herr⟩
    · exact Or.inl ⟨⟨v⟩, by simp [Signature.fromBytes, hok], henc, hl⟩
    · exact Or.inr ⟨s, by simp [Signature.fromBytes, herr]⟩
  · intro bs
    rcases g2_decode_safe bs with ⟨v, hok, henc, hl⟩ | ⟨s, herr⟩
    · exact Or.inl ⟨⟨v⟩, by simp [AggregatedSignature.fromBytes, hok], henc, hl⟩
    · exact Or.inr ⟨s, by simp [AggregatedSignature.fromBytes, herr]⟩
